import Mathlib

/-!
Shallow embedding of `main.py` and `main_old.py` of the
englishSubtitleToHungarianTranslator repository, together with proofs of the
behavioural claims about the subtitle-translation pipeline.

Python strings are modelled as `List Char` (Python `len` counts code points,
which matches `List.length` on the character list); the `String` wrapper is
used where the source passes whole texts around.  External collaborators
(the Argos translator and the NLTK sentence tokenizer) are modelled as
arbitrary function parameters, exactly as the code treats them: opaque
callbacks invoked on strings.
-/

namespace SubTrans

/-- Python whitespace characters recognised by `str.split()` / `str.strip()`
(ASCII subset; the source texts are ASCII apart from the `§` marker). -/
def pyIsSpace (c : Char) : Bool :=
  c = ' ' || c = '\t' || c = '\n' || c = '\r' || c = '\x0b' || c = '\x0c'

/-- `leadsWith pat s` decides whether `pat` is an initial segment of `s`
(the prefix test Python's `str.replace` / `str.startswith` perform). -/
def leadsWith : List Char → List Char → Bool
  | [], _ => true
  | _ :: _, [] => false
  | p :: ps, c :: cs => if p = c then leadsWith ps cs else false

theorem leadsWith_eq_append {pat s : List Char} (h : leadsWith pat s = true) :
    s = pat ++ s.drop pat.length := by
  induction pat generalizing s with
  | nil => simp
  | cons p ps ih =>
    cases s with
    | nil => simp [leadsWith] at h
    | cons c cs =>
      simp only [leadsWith] at h
      split at h
      · next hpc => subst hpc; simpa using ih h
      · exact absurd h (by simp)

/-- Fuel-driven core of Python `str.replace(pat, rep)`: leftmost,
non-overlapping replacement of every occurrence.  The fuel is always
instantiated with the length of the scanned list, which suffices because
every step consumes at least one character when `pat` is nonempty (every
call site uses a nonempty pattern). -/
def replaceAux (pat rep : List Char) : Nat → List Char → List Char
  | _, [] => []
  | 0, s => s
  | fuel + 1, c :: cs =>
    if leadsWith pat (c :: cs) then
      rep ++ replaceAux pat rep fuel ((c :: cs).drop pat.length)
    else
      c :: replaceAux pat rep fuel cs

/-- Python `s.replace(pat, rep)` on character lists. -/
def pyReplace (s pat rep : List Char) : List Char :=
  replaceAux pat rep s.length s

/-- Python `str.split()` (no separator): maximal runs of non-whitespace
characters; `acc` holds the reversed current word. -/
def wordsAux (acc : List Char) : List Char → List (List Char)
  | [] => if acc.isEmpty then [] else [acc.reverse]
  | c :: cs =>
    if pyIsSpace c then
      if acc.isEmpty then wordsAux [] cs else acc.reverse :: wordsAux [] cs
    else
      wordsAux (c :: acc) cs

def pySplit (s : List Char) : List (List Char) := wordsAux [] s

/-- `" ".join(ws)` on character lists. -/
def joinSpace : List (List Char) → List Char
  | [] => []
  | w :: ws => w ++ if ws.isEmpty then [] else ' ' :: joinSpace ws

/-- Python `str.strip()`. -/
def pyStrip (s : List Char) : List Char :=
  ((s.dropWhile pyIsSpace).reverse.dropWhile pyIsSpace).reverse

/-- Fuel-driven core of Python `str.split(sep)` (separator form, empties
kept); `acc` holds the reversed current chunk.  Fuel is the length of the
remaining text, sufficient for the nonempty separators used by the code. -/
def splitSepAux (sep : List Char) : Nat → List Char → List Char → List (List Char)
  | _, acc, [] => [acc.reverse]
  | 0, acc, s => [acc.reverse ++ s]
  | fuel + 1, acc, c :: cs =>
    if leadsWith sep (c :: cs) then
      acc.reverse :: splitSepAux sep fuel [] ((c :: cs).drop sep.length)
    else
      splitSepAux sep fuel (c :: acc) cs

/-- Python `s.split(sep)`. -/
def pySplitSep (s sep : List Char) : List (List Char) :=
  splitSepAux sep s.length [] s

/-- Digit-string to number, `none` on any non-digit (helper for `int(...)`). -/
def digitsToNat : List Char → Option Nat
  | [] => none
  | ds =>
    if ds.all Char.isDigit then
      some (ds.foldl (fun a c => a * 10 + (c.toNat - 48)) 0)
    else
      none

/-- Python `int(s)` on an already-stripped string: optional sign followed by
decimal digits, raising (here: `none`) otherwise. -/
def pyParseInt (s : List Char) : Option Int :=
  match s with
  | '-' :: rest => (digitsToNat rest).map (fun n => -(n : Int))
  | '+' :: rest => (digitsToNat rest).map (fun n => (n : Int))
  | _ => (digitsToNat s).map (fun n => (n : Int))

/-! ### Term protector (`main.py` lines 23-27 and 74-87) -/

/-- `EXCEPTIONS` from `main.py`, in source order. -/
def EXCEPTIONS : List String :=
  ["Angular", "React", "React Native", "Python", "Vue", "Node.js", "Docker",
   "Kubernetes", "Git", "GitHub", "TypeScript", "JavaScript", "AWS", "Azure",
   "History API", "Zero to Mastery", "C++", "C#", "C-sharp", "Java",
   "Objective-C", "SQL"]

/-- The replacement `f"§{term}§"` used by `protect_terms`. -/
def markTerm (t : List Char) : List Char := '§' :: (t ++ ['§'])

/-- `protect_terms` (`main.py` lines 74-77): successive `str.replace` of each
vocabulary term by its marked form, in list order. -/
def protectChars (s : List Char) : List Char :=
  EXCEPTIONS.foldl (fun acc term => pyReplace acc term.data (markTerm term.data)) s

def protect_terms (s : String) : String := String.mk (protectChars s.data)

/-- `unprotect_terms` (`main.py` lines 80-81): `text.replace("§", "")`. -/
def unprotect_terms (s : String) : String := String.mk (pyReplace s.data ['§'] [])

/-- Deleting every marker character (the mathematical form of
`unprotect_terms`). -/
def eraseMark (s : List Char) : List Char := s.filter (fun c => c != '§')

theorem eraseMark_append (a b : List Char) :
    eraseMark (a ++ b) = eraseMark a ++ eraseMark b := by
  simp [eraseMark]

theorem eraseMark_of_not_mem {s : List Char} (h : '§' ∉ s) : eraseMark s = s := by
  apply List.filter_eq_self.mpr
  intro a ha
  simp only [bne_iff_ne, ne_eq]
  exact fun e => h (e ▸ ha)

theorem eraseMark_markTerm {t : List Char} (h : '§' ∉ t) :
    eraseMark (markTerm t) = t := by
  simp [markTerm, eraseMark, List.filter_cons, eraseMark_append]
  simpa [eraseMark] using eraseMark_of_not_mem h

/-- Replacing a marker-free pattern by its marked form only inserts marker
characters: erasing all markers recovers what erasing them from the input
gives. Holds for every fuel value because exhausted fuel returns the text
unchanged. -/
theorem eraseMark_replaceAux {pat : List Char} (hp : '§' ∉ pat) :
    ∀ fuel s, eraseMark (replaceAux pat (markTerm pat) fuel s) = eraseMark s := by
  intro fuel
  induction fuel with
  | zero => intro s; cases s <;> rfl
  | succ n ih =>
    intro s
    cases s with
    | nil => rfl
    | cons c cs =>
      simp only [replaceAux]
      split
      · next hpre =>
        have hdecomp := leadsWith_eq_append hpre
        rw [eraseMark_append, eraseMark_markTerm hp, ih]
        conv_rhs => rw [hdecomp]
        rw [eraseMark_append, eraseMark_of_not_mem hp]
      · rw [show eraseMark (c :: replaceAux pat (markTerm pat) n cs)
              = eraseMark [c] ++ eraseMark (replaceAux pat (markTerm pat) n cs) from
              eraseMark_append [c] _, ih,
            show eraseMark (c :: cs) = eraseMark [c] ++ eraseMark cs from
              eraseMark_append [c] cs]

theorem eraseMark_pyReplace_mark {pat : List Char} (hp : '§' ∉ pat) (s : List Char) :
    eraseMark (pyReplace s pat (markTerm pat)) = eraseMark s :=
  eraseMark_replaceAux hp s.length s

/-- Erasing markers commutes with the whole protection fold. -/
theorem eraseMark_protectChars (s : List Char) :
    eraseMark (protectChars s) = eraseMark s := by
  have key : ∀ (terms : List String) (t : List Char),
      (∀ w ∈ terms, '§' ∉ w.data) →
      eraseMark (terms.foldl
        (fun acc term => pyReplace acc term.data (markTerm term.data)) t)
        = eraseMark t := by
    intro terms
    induction terms with
    | nil => intro t _; rfl
    | cons w ws ih =>
      intro t hall
      simp only [List.foldl_cons]
      rw [ih _ (fun x hx => hall x (List.mem_cons_of_mem _ hx)),
          eraseMark_pyReplace_mark (hall w (List.mem_cons_self _ _))]
  exact key EXCEPTIONS s (by decide)

/-- Replacing the single-character pattern `§` by nothing is exactly
`eraseMark` (given enough fuel). -/
theorem replaceAux_mark_empty : ∀ fuel s, s.length ≤ fuel →
    replaceAux ['§'] [] fuel s = eraseMark s := by
  intro fuel
  induction fuel with
  | zero =>
    intro s hs
    cases s with
    | nil => rfl
    | cons c cs => simp at hs
  | succ n ih =>
    intro s hs
    cases s with
    | nil => rfl
    | cons c cs =>
      simp only [replaceAux]
      by_cases hc : c = '§'
      · subst hc
        rw [if_pos (by simp [leadsWith])]
        have hd : List.drop (List.length ['§']) ('§' :: cs) = cs := rfl
        rw [hd, List.nil_append]
        rw [ih cs (by simpa using Nat.le_of_succ_le_succ hs)]
        simp [eraseMark, List.filter_cons]
      · have hcond : leadsWith ['§'] (c :: cs) = false := by
          simp only [leadsWith]
          rw [if_neg (show ¬('§' = c) from fun e => hc e.symm)]
        rw [if_neg (by simp [hcond])]
        rw [ih cs (by simpa using Nat.le_of_succ_le_succ hs)]
        simp [eraseMark, List.filter_cons, bne_iff_ne, hc]

theorem mk_data (l : List Char) : (String.mk l).data = l := rfl

theorem unprotect_eq_eraseMark (s : String) :
    unprotect_terms s = String.mk (eraseMark s.data) := by
  unfold unprotect_terms pyReplace
  rw [replaceAux_mark_empty s.data.length s.data (Nat.le_refl _)]

/-! ### Line wrapper (`main.py` lines 29 and 90-137) -/

def MAX_CHARS_PER_LINE : Nat := 65
def MAX_SENTENCES_PER_BLOCK : Nat := 5
def MAX_CHARS_PER_BLOCK : Nat := 512

/-- First search of `format_srt_text`: `for i in range(mid, 0, -1)` looking
for a split index where both lines fit the budget.  The argument is the
current loop index `i`; index `0` means the loop ran out. -/
def findBreakDown (words : List (List Char)) (budget : Nat) : Nat → Option (List Char × List Char)
  | 0 => none
  | i + 1 =>
    let firstLine := joinSpace (words.take (i + 1))
    if firstLine.length ≤ budget then
      let secondLine := joinSpace (words.drop (i + 1))
      if secondLine.length ≤ budget then some (firstLine, secondLine)
      else findBreakDown words budget i
    else findBreakDown words budget i

/-- Second search of `format_srt_text`: `for i in range(mid+1, len(words))`,
returning a split one word before the first index whose first line exceeds
the budget.  `i` is the current index, the fuel counts remaining iterations. -/
def findBreakUp (words : List (List Char)) (budget : Nat) : Nat → Nat → Option (List Char × List Char)
  | _, 0 => none
  | i, fuel + 1 =>
    let firstLine := joinSpace (words.take i)
    if firstLine.length > budget then
      if i > 1 then
        some (joinSpace (words.take (i - 1)), joinSpace (words.drop (i - 1)))
      else findBreakUp words budget (i + 1) fuel
    else findBreakUp words budget (i + 1) fuel

/-- `format_srt_text` (`main.py` lines 90-137) on character lists: blank
text maps to the empty string, otherwise the text is whitespace-normalised,
kept whole when it fits the budget, and otherwise broken into two lines by
the two searches with a word-count bisection fallback. -/
def formatCore (text : List Char) (budget : Nat) : List Char :=
  if pyStrip text = [] then []
  else
    let t := joinSpace (pySplit text)
    if t.length ≤ budget then t
    else
      let words := pySplit t
      let mid := words.length / 2
      match findBreakDown words budget mid with
      | some (f, s) => f ++ '\n' :: s
      | none =>
        match findBreakUp words budget (mid + 1) (words.length - (mid + 1)) with
        | some (f, s) => f ++ '\n' :: s
        | none =>
          joinSpace (words.take mid) ++ '\n' :: joinSpace (words.drop mid)

def format_srt_text (s : String) : String :=
  String.mk (formatCore s.data MAX_CHARS_PER_LINE)

/-! ### `balance_two_lines` (`main_old.py` lines 91-120) -/

/-- One iteration of the `balance_two_lines` loop body.  `none` models the
`break` statements (difference within 10, or the longer line has at most one
word); `some` carries the lines after moving one word across. -/
def balanceStep (line1 line2 : List Char) : Option (List Char × List Char) :=
  if max line1.length line2.length - min line1.length line2.length ≤ 10 then none
  else if line1.length > line2.length then
    let parts := pySplit line1
    if parts.length ≤ 1 then none
    else
      let moved := (parts.getLast?).getD []
      some (joinSpace parts.dropLast, moved ++ ' ' :: line2)
  else
    let parts := pySplit line2
    if parts.length ≤ 1 then none
    else
      let moved := (parts.head?).getD []
      some (line1 ++ ' ' :: moved, joinSpace parts.tail)

/-- The `for _ in range(3)` loop of `balance_two_lines`. -/
def balanceLoop : Nat → List Char × List Char → List Char × List Char
  | 0, p => p
  | n + 1, (l1, l2) =>
    match balanceStep l1 l2 with
    | none => (l1, l2)
    | some p => balanceLoop n p

/-- `balance_two_lines` (`main_old.py` lines 91-120): at most three
word-moving iterations followed by stripping both lines. -/
def balance_two_lines (line1 line2 : List Char) : List Char × List Char :=
  let p := balanceLoop 3 (line1, line2)
  (pyStrip p.1, pyStrip p.2)

/-! ### Sentence-count-stable batcher (`main.py` lines 84-87 and 166-239)

The Argos engine and the NLTK `sent_tokenize` collaborator are opaque
function parameters `argos : String → String` and `seg : String → List
String`.  `translate_text` composes the protector around the engine exactly
as `main.py` lines 84-87 do.  The batcher records every `translate_text`
invocation (one engine call each) in a `calls` trace so that claims about
when the translator is invoked are statable. -/

def translate_text (argos : String → String) (s : String) : String :=
  unprotect_terms (argos (protect_terms s))

/-- `" ".join` on whole sentences (`main.py` line 191 and 268). -/
def joinSents (ss : List String) : String :=
  String.mk (joinSpace (ss.map String.data))

/-- `sum(len(sent) for sent in block_sentences)` (`main.py` line 183). -/
def blockChars (ss : List String) : Nat := (ss.map String.length).sum

/-- Result of one outer iteration of the batcher: the translated sentences
appended to `all_hun_sentences`, the cursor advance, and the texts passed to
`translate_text` during the iteration, in call order. -/
structure BatchResult where
  sents : List String
  advance : Nat
  calls : List String
deriving DecidableEq

/-- The `else` clause of the inner `while` (`main.py` lines 224-239): every
attempt size was rejected, so one sentence is translated unconditionally.
The guard `cur < src.length` mirrors line 227 (when it fails the clause does
nothing and the outer loop re-checks its condition). -/
def forcedSingle (tr : String → String) (seg : String → List String)
    (src : List String) (cur : Nat) : BatchResult :=
  if cur < src.length then
    let s := src.getD cur ""
    ⟨seg (tr s), 1, [s]⟩
  else ⟨[], 0, []⟩

/-- The inner loop body at `attempt_sentence_count = 1` (`main.py` lines
177-223): a failing character check decrements the attempt to 0, which ends
the `while` and runs its `else` clause; otherwise the sentence is translated
and the result accepted whether or not the re-segmented count matches. -/
def attemptOne (tr : String → String) (seg : String → List String)
    (src : List String) (cur : Nat) : BatchResult :=
  let block := (src.drop cur).take 1
  if blockChars block > MAX_CHARS_PER_BLOCK then forcedSingle tr seg src cur
  else
    let t := joinSents block
    let hun := seg (tr t)
    if hun.length = block.length then ⟨hun, block.length, [t]⟩
    else ⟨hun, 1, [t]⟩

/-- The inner `while attempt_sentence_count > 0` loop (`main.py` lines
177-239), indexed by the current attempt size.  A failing character check
decrements the attempt; a sentence-count mismatch at size ≥ 2 drops the
attempt straight to 1 (line 217), re-running the body there. -/
def batchAttempt (tr : String → String) (seg : String → List String)
    (src : List String) (cur : Nat) : Nat → BatchResult
  | 0 => forcedSingle tr seg src cur
  | 1 => attemptOne tr seg src cur
  | n + 2 =>
    let block := (src.drop cur).take (n + 2)
    if blockChars block > MAX_CHARS_PER_BLOCK then
      batchAttempt tr seg src cur (n + 1)
    else
      let t := joinSents block
      let hun := seg (tr t)
      if hun.length = block.length then ⟨hun, block.length, [t]⟩
      else
        let r := attemptOne tr seg src cur
        ⟨r.sents, r.advance, t :: r.calls⟩

/-- Accumulated outcome of the outer `while` loop: the translated-sentence
pool, the final cursor, the number of outer iterations executed, and the
full translator-call trace. -/
structure LoopResult where
  out : List String
  cursor : Nat
  iters : Nat
  calls : List String
deriving DecidableEq

/-- The outer `while current_sentence_idx < len(all_eng_sentences)` loop
(`main.py` lines 170-239), driven by fuel.  The fuel is instantiated with
`src.length`, which suffices because every iteration advances the cursor by
at least one (proved below). -/
def processLoop (tr : String → String) (seg : String → List String)
    (src : List String) : Nat → Nat → List String → List String → LoopResult
  | 0, cur, acc, cs => ⟨acc, cur, 0, cs⟩
  | fuel + 1, cur, acc, cs =>
    if cur < src.length then
      let want := min MAX_SENTENCES_PER_BLOCK (src.length - cur)
      let r := batchAttempt tr seg src cur want
      let rest := processLoop tr seg src fuel (cur + r.advance) (acc ++ r.sents) (cs ++ r.calls)
      ⟨rest.out, rest.cursor, rest.iters + 1, rest.calls⟩
    else ⟨acc, cur, 0, cs⟩

/-- Step 3 of `process_and_generate_srt`: translate the flat sentence list. -/
def processSentences (tr : String → String) (seg : String → List String)
    (src : List String) : LoopResult :=
  processLoop tr seg src src.length 0 [] []

/-! ### SRT parser and writer (`main.py` lines 50-71 and 140-147) -/

structure SrtBlock where
  index : Int
  timestamp : String
  text : String
deriving DecidableEq

instance : Inhabited SrtBlock := ⟨⟨0, "", ""⟩⟩

/-- Parse one raw block (`main.py` lines 56-69).  `some none` models the
`continue` on fewer than three nonempty lines; `none` models the
`ValueError` that `int(...)` raises on an unparseable index line. -/
def parseBlock (b : List Char) : Option (Option SrtBlock) :=
  let lines := (pySplitSep b "\n".data).filter (fun l => pyStrip l ≠ [])
  if lines.length < 3 then some none
  else
    let idxLine := lines.getD 0 []
    let idxLine := match idxLine with
      | c :: cs => if c = '\uFEFF' then cs else c :: cs
      | [] => []
    match pyParseInt (pyStrip idxLine) with
    | none => none
    | some i =>
      some (some { index := i,
                   timestamp := String.mk (lines.getD 1 []),
                   text := String.mk (joinSpace (lines.drop 2)) })

/-- `read_srt` (`main.py` lines 50-71): newline normalisation, blank-line
splitting, and per-block parsing.  `none` models the hard parse failure. -/
def read_srt (raw : String) : Option (List SrtBlock) :=
  let s := pyReplace (pyReplace raw.data "\r\n".data "\n".data) "\r".data "\n".data
  let blocks := (pySplitSep s "\n\n".data).filter (fun b => pyStrip b ≠ [])
  blocks.foldr
    (fun b acc =>
      match parseBlock b, acc with
      | none, _ => none
      | _, none => none
      | some none, some rest => some rest
      | some (some blk), some rest => some (blk :: rest))
    (some [])

/-- `"\n".join` used by `write_srt`. -/
def joinNewline : List (List Char) → List Char
  | [] => []
  | w :: ws => w ++ if ws.isEmpty then [] else '\n' :: joinNewline ws

/-- `write_srt` (`main.py` lines 140-147): index, timestamp and text lines
per block, each block followed by a blank line, all joined with newlines. -/
def write_srt (blocks : List SrtBlock) : String :=
  String.mk (joinNewline ((blocks.map (fun b =>
    [(toString b.index).data, b.timestamp.data, b.text.data, ([] : List Char)])).flatten))

/-! ### Block reassembler (`main.py` lines 251-278) -/

/-- The inner `for _ in range(num_sentences)` loop (`main.py` lines
262-265): each iteration appends the sentence at the cursor and advances it,
unless the pool is exhausted, in which case the iteration does nothing. -/
def takeFromPool (pool : List String) : Nat → Nat → List String × Nat
  | idx, 0 => ([], idx)
  | idx, n + 1 =>
    if idx < pool.length then
      let r := takeFromPool pool (idx + 1) n
      (pool.getD idx "" :: r.1, r.2)
    else takeFromPool pool idx n

/-- The `for eng_block in eng_blocks` loop (`main.py` lines 255-278): for
each original block, take as many pool sentences as the block's original
sentence count, join them with single spaces, format, and keep the block's
index and timestamp.  Returns the new blocks and the final pool cursor. -/
def reassemble (seg : String → List String) :
    List SrtBlock → List String → Nat → List SrtBlock × Nat
  | [], _, idx => ([], idx)
  | b :: bs, pool, idx =>
    let num := (seg b.text).length
    let t := takeFromPool pool idx num
    let rest := reassemble seg bs pool t.2
    ({ index := b.index, timestamp := b.timestamp,
       text := format_srt_text (joinSents t.1) } :: rest.1, rest.2)

/-- `process_and_generate_srt` (`main.py` lines 150-303) without the I/O and
logging: parse, flatten the per-block sentences, run the batcher, and
redistribute the translated pool over the original blocks.  `none` models
the hard parse failure of `read_srt`. -/
def pipeline (argos : String → String) (seg : String → List String)
    (raw : String) : Option (List SrtBlock) :=
  (read_srt raw).map (fun engBlocks =>
    let allEng := (engBlocks.map (fun b => seg b.text)).flatten
    let r := processSentences (translate_text argos) seg allEng
    (reassemble seg engBlocks r.out 0).1)

/-- Per-block original sentence counts (`main.py` lines 257-258). -/
def blockCounts (seg : String → List String) (bs : List SrtBlock) : List Nat :=
  bs.map (fun b => (seg b.text).length)

/-- The reassembly cursor position just before block `i` is processed, when
reassembly starts at `idx`: the partial sum of the earlier blocks' counts,
saturated at the pool size. -/
def cursorBefore (seg : String → List String) (bs : List SrtBlock)
    (pool : List String) (idx i : Nat) : Nat :=
  min (idx + ((blockCounts seg bs).take i).sum) pool.length

/-! ### Batcher lemmas -/

theorem attemptOne_advance (tr : String → String) (seg : String → List String)
    {src : List String} {cur : Nat} (h : cur < src.length) :
    (attemptOne tr seg src cur).advance = 1 := by
  have hblock : ((src.drop cur).take 1).length = 1 := by
    simp only [List.length_take, List.length_drop]
    omega
  unfold attemptOne
  dsimp only
  split
  · unfold forcedSingle
    rw [if_pos h]
  · split
    · exact hblock
    · rfl

theorem attemptOne_calls_sub (tr : String → String) (seg : String → List String)
    (src : List String) (cur : Nat) :
    ∀ c ∈ (attemptOne tr seg src cur).calls,
      (c = joinSents ((src.drop cur).take 1) ∧
        blockChars ((src.drop cur).take 1) ≤ MAX_CHARS_PER_BLOCK) ∨
      c = src.getD cur "" := by
  intro c hc
  unfold attemptOne at hc
  dsimp only at hc
  split at hc
  · right
    unfold forcedSingle at hc
    split at hc
    · simpa using hc
    · simp at hc
  · next hch =>
    left
    refine ⟨?_, Nat.le_of_not_lt hch⟩
    split at hc <;> simpa using hc

theorem batchAttempt_advance_pos (tr : String → String) (seg : String → List String)
    {src : List String} {cur : Nat} (h : cur < src.length) :
    ∀ a, 1 ≤ (batchAttempt tr seg src cur a).advance := by
  intro a
  induction a using Nat.strong_induction_on with
  | _ a ih =>
    match a with
    | 0 =>
      unfold batchAttempt forcedSingle
      rw [if_pos h]
    | 1 =>
      show 1 ≤ (attemptOne tr seg src cur).advance
      rw [attemptOne_advance tr seg h]
    | n + 2 =>
      show 1 ≤ (batchAttempt tr seg src cur (n + 2)).advance
      unfold batchAttempt
      dsimp only
      split
      · exact ih (n + 1) (by omega)
      · split
        · have hlen : ((src.drop cur).take (n + 2)).length = min (n + 2) (src.length - cur) := by
            simp only [List.length_take, List.length_drop]
          dsimp only
          rw [hlen]
          omega
        · dsimp only
          rw [attemptOne_advance tr seg h]

theorem batchAttempt_advance_le (tr : String → String) (seg : String → List String)
    {src : List String} {cur : Nat} (h : cur < src.length) :
    ∀ a, (batchAttempt tr seg src cur a).advance ≤ src.length - cur := by
  intro a
  induction a using Nat.strong_induction_on with
  | _ a ih =>
    match a with
    | 0 =>
      unfold batchAttempt forcedSingle
      rw [if_pos h]
      dsimp only
      omega
    | 1 =>
      show (attemptOne tr seg src cur).advance ≤ src.length - cur
      rw [attemptOne_advance tr seg h]
      omega
    | n + 2 =>
      show (batchAttempt tr seg src cur (n + 2)).advance ≤ src.length - cur
      unfold batchAttempt
      dsimp only
      split
      · exact ih (n + 1) (by omega)
      · split
        · have hlen : ((src.drop cur).take (n + 2)).length = min (n + 2) (src.length - cur) := by
            simp only [List.length_take, List.length_drop]
          dsimp only
          rw [hlen]
          omega
        · dsimp only
          rw [attemptOne_advance tr seg h]
          omega

theorem processLoop_spec (tr : String → String) (seg : String → List String)
    (src : List String) :
    ∀ fuel cur acc cs, cur ≤ src.length → src.length - cur ≤ fuel →
      (processLoop tr seg src fuel cur acc cs).cursor = src.length ∧
      (processLoop tr seg src fuel cur acc cs).iters ≤ src.length - cur := by
  intro fuel
  induction fuel with
  | zero =>
    intro cur acc cs hle hfuel
    have : cur = src.length := by omega
    subst this
    unfold processLoop
    dsimp only
    exact ⟨rfl, by omega⟩
  | succ n ih =>
    intro cur acc cs hle hfuel
    by_cases hcur : cur < src.length
    · have hadv1 : 1 ≤ (batchAttempt tr seg src cur
          (min MAX_SENTENCES_PER_BLOCK (src.length - cur))).advance :=
        batchAttempt_advance_pos tr seg hcur _
      have hadv2 : (batchAttempt tr seg src cur
          (min MAX_SENTENCES_PER_BLOCK (src.length - cur))).advance ≤ src.length - cur :=
        batchAttempt_advance_le tr seg hcur _
      have hrec := ih (cur + (batchAttempt tr seg src cur
          (min MAX_SENTENCES_PER_BLOCK (src.length - cur))).advance)
        (acc ++ (batchAttempt tr seg src cur
          (min MAX_SENTENCES_PER_BLOCK (src.length - cur))).sents)
        (cs ++ (batchAttempt tr seg src cur
          (min MAX_SENTENCES_PER_BLOCK (src.length - cur))).calls)
        (by omega) (by omega)
      unfold processLoop
      rw [if_pos hcur]
      dsimp only
      exact ⟨hrec.1, by have := hrec.2; omega⟩
    · have : cur = src.length := by omega
      subst this
      unfold processLoop
      rw [if_neg hcur]
      dsimp only
      exact ⟨rfl, by omega⟩

/-- C1: for every finite source-sentence sequence and every behaviour of the
translator and segmenter callbacks, the batcher loop terminates with its
final cursor equal to the input length (every source sentence consumed
exactly once), runs at most `src.length` outer iterations, and advances the
cursor by at least 1 on every outer iteration (the advance of the inner
attempt loop is at least 1 whenever the cursor is inside the input). -/
theorem C1_batcher_terminates_and_consumes_all (tr : String → String)
    (seg : String → List String) (src : List String) :
    (processSentences tr seg src).cursor = src.length ∧
    (processSentences tr seg src).iters ≤ src.length ∧
    ∀ cur a, cur < src.length → 1 ≤ (batchAttempt tr seg src cur a).advance := by
  have h := processLoop_spec tr seg src src.length 0 [] []
    (Nat.zero_le _) (by omega)
  exact ⟨h.1, by simpa using h.2, fun cur a hcur => batchAttempt_advance_pos tr seg hcur a⟩

/-- Concrete instantiation of C1: an always-merging segmenter on a
three-sentence input still ends with the cursor at the input length, within
three outer iterations, each advancing by at least one. -/
theorem C1_witness :
    (0 : Nat) < (["aa.", "bb.", "cc."] : List String).length ∧
    1 ≤ (batchAttempt (fun s => s) (fun s => [s]) ["aa.", "bb.", "cc."] 0 3).advance ∧
    (processSentences (fun s => s) (fun s => [s]) ["aa.", "bb.", "cc."]).cursor = 3 := by
  refine ⟨by decide, ?_, ?_⟩
  · exact (C1_batcher_terminates_and_consumes_all (fun s => s) (fun s => [s])
      ["aa.", "bb.", "cc."]).2.2 0 3 (by decide)
  · exact (C1_batcher_terminates_and_consumes_all (fun s => s) (fun s => [s])
      ["aa.", "bb.", "cc."]).1

theorem batchAttempt_one_eq (tr : String → String) (seg : String → List String)
    (src : List String) (cur : Nat) :
    batchAttempt tr seg src cur 1 = attemptOne tr seg src cur := rfl

/-- C2: on a re-segmented sentence-count mismatch at attempt size ≥ 2 (with
the character check passed), the batcher behaves exactly as the attempt-size-1
body, with only the one failed translator call in between — no intermediate
attempt size is tried; and on a mismatch at attempt size 1 it appends
whatever sentences resulted and advances the cursor by exactly 1. -/
theorem C2_mismatch_drops_to_one (tr : String → String) (seg : String → List String)
    (src : List String) (cur : Nat) :
    (∀ n,
      blockChars ((src.drop cur).take (n + 2)) ≤ MAX_CHARS_PER_BLOCK →
      (seg (tr (joinSents ((src.drop cur).take (n + 2))))).length
          ≠ ((src.drop cur).take (n + 2)).length →
      batchAttempt tr seg src cur (n + 2) =
        ⟨(batchAttempt tr seg src cur 1).sents,
         (batchAttempt tr seg src cur 1).advance,
         joinSents ((src.drop cur).take (n + 2)) :: (batchAttempt tr seg src cur 1).calls⟩) ∧
    (blockChars ((src.drop cur).take 1) ≤ MAX_CHARS_PER_BLOCK →
      (seg (tr (joinSents ((src.drop cur).take 1)))).length
          ≠ ((src.drop cur).take 1).length →
      batchAttempt tr seg src cur 1 =
        ⟨seg (tr (joinSents ((src.drop cur).take 1))), 1,
         [joinSents ((src.drop cur).take 1)]⟩) := by
  constructor
  · intro n hchars hmis
    show (let block := (src.drop cur).take (n + 2);
      if blockChars block > MAX_CHARS_PER_BLOCK then batchAttempt tr seg src cur (n + 1)
      else
        let t := joinSents block
        let hun := seg (tr t)
        if hun.length = block.length then ⟨hun, block.length, [t]⟩
        else
          let r := attemptOne tr seg src cur
          ⟨r.sents, r.advance, t :: r.calls⟩) = _
    dsimp only
    rw [if_neg (Nat.not_lt.mpr hchars), if_neg hmis, batchAttempt_one_eq]
  · intro hchars hmis
    rw [batchAttempt_one_eq]
    unfold attemptOne
    dsimp only
    rw [if_neg (Nat.not_lt.mpr hchars), if_neg hmis]

def trIdW : String → String := fun s => s

/-- A segmenter that merges the two-sentence batch into one sentence and
splits the single first sentence into two, exercising both mismatch cases. -/
def segMergeW : String → List String := fun s =>
  if s = "Aa. Bb." then ["AaBb."] else if s = "Aa." then ["A", "a"] else [s]

def srcW : List String := ["Aa.", "Bb."]

/-- Concrete instantiation of C2 on a merging/splitting segmenter. -/
theorem C2_witness :
    blockChars ((srcW.drop 0).take 2) ≤ MAX_CHARS_PER_BLOCK ∧
    (segMergeW (trIdW (joinSents ((srcW.drop 0).take 2)))).length
        ≠ ((srcW.drop 0).take 2).length ∧
    batchAttempt trIdW segMergeW srcW 0 2 =
      ⟨(batchAttempt trIdW segMergeW srcW 0 1).sents,
       (batchAttempt trIdW segMergeW srcW 0 1).advance,
       joinSents ((srcW.drop 0).take 2) :: (batchAttempt trIdW segMergeW srcW 0 1).calls⟩ ∧
    batchAttempt trIdW segMergeW srcW 0 1 =
      ⟨segMergeW (trIdW (joinSents ((srcW.drop 0).take 1))), 1,
       [joinSents ((srcW.drop 0).take 1)]⟩ :=
  ⟨by decide, by decide,
   (C2_mismatch_drops_to_one trIdW segMergeW srcW 0).1 0 (by decide) (by decide),
   (C2_mismatch_drops_to_one trIdW segMergeW srcW 0).2 (by decide) (by decide)⟩

/-- C6 (amended): a failing character check decrements the attempt size with
no translator call for that attempt (full-result equality, call trace
included); and every translator call of the attempt loop is either on a
joined batch that passed the character check, or is the forced
single-sentence fallback on the sentence at the cursor (the sole exception
to the claim — see the counterexample). -/
theorem C6_cheap_rejection (tr : String → String) (seg : String → List String)
    (src : List String) (cur : Nat) :
    (∀ n, MAX_CHARS_PER_BLOCK < blockChars ((src.drop cur).take (n + 1)) →
      batchAttempt tr seg src cur (n + 1) = batchAttempt tr seg src cur n) ∧
    (∀ a c, c ∈ (batchAttempt tr seg src cur a).calls →
      (∃ k, 1 ≤ k ∧ k ≤ a ∧ c = joinSents ((src.drop cur).take k) ∧
        blockChars ((src.drop cur).take k) ≤ MAX_CHARS_PER_BLOCK) ∨
      c = src.getD cur "") := by
  constructor
  · intro n hchars
    match n with
    | 0 =>
      rw [batchAttempt_one_eq]
      unfold attemptOne
      dsimp only
      rw [if_pos hchars]
      rfl
    | m + 1 =>
      show (let block := (src.drop cur).take (m + 2);
        if blockChars block > MAX_CHARS_PER_BLOCK then batchAttempt tr seg src cur (m + 1)
        else
          let t := joinSents block
          let hun := seg (tr t)
          if hun.length = block.length then ⟨hun, block.length, [t]⟩
          else
            let r := attemptOne tr seg src cur
            ⟨r.sents, r.advance, t :: r.calls⟩) = _
      dsimp only
      rw [if_pos hchars]
  · intro a
    induction a using Nat.strong_induction_on with
    | _ a ih =>
      match a with
      | 0 =>
        intro c hc
        unfold batchAttempt forcedSingle at hc
        split at hc
        · right; simpa using hc
        · simp at hc
      | 1 =>
        intro c hc
        rw [batchAttempt_one_eq] at hc
        rcases attemptOne_calls_sub tr seg src cur c hc with ⟨h1, h2⟩ | h
        · exact Or.inl ⟨1, Nat.le_refl _, Nat.le_refl _, h1, h2⟩
        · exact Or.inr h
      | n + 2 =>
        intro c hc
        rw [show batchAttempt tr seg src cur (n + 2) =
          (let block := (src.drop cur).take (n + 2);
            if blockChars block > MAX_CHARS_PER_BLOCK then batchAttempt tr seg src cur (n + 1)
            else
              let t := joinSents block
              let hun := seg (tr t)
              if hun.length = block.length then ⟨hun, block.length, [t]⟩
              else
                let r := attemptOne tr seg src cur
                ⟨r.sents, r.advance, t :: r.calls⟩) from rfl] at hc
        dsimp only at hc
        split at hc
        · rcases ih (n + 1) (by omega) c hc with ⟨k, hk1, hk2, hk3, hk4⟩ | h
          · exact Or.inl ⟨k, hk1, by omega, hk3, hk4⟩
          · exact Or.inr h
        · next hchars =>
          split at hc
          · simp only [List.mem_singleton] at hc
            exact Or.inl ⟨n + 2, by omega, Nat.le_refl _, hc, Nat.le_of_not_lt hchars⟩
          · simp only [List.mem_cons] at hc
            rcases hc with hc | hc
            · exact Or.inl ⟨n + 2, by omega, Nat.le_refl _, hc, Nat.le_of_not_lt hchars⟩
            · rcases attemptOne_calls_sub tr seg src cur c hc with ⟨h1, h2⟩ | h
              · exact Or.inl ⟨1, Nat.le_refl _, by omega, h1, h2⟩
              · exact Or.inr h

/-- A single sentence longer than `MAX_CHARS_PER_BLOCK`. -/
def longSent : String := String.mk (List.replicate 513 'a')

def segIdW : String → List String := fun s => [s]

set_option maxRecDepth 8000 in
/-- Counterexample to C6 as stated: on a source whose single sentence has
513 characters, the batcher does invoke the translator (via the forced
fallback) on a batch whose character count exceeds `MAX_CHARS_PER_BLOCK`,
so the translator is not only invoked on batches passing the check. -/
theorem C6_counterexample :
    MAX_CHARS_PER_BLOCK < blockChars [longSent] ∧
    (processSentences trIdW segIdW [longSent]).calls = [longSent] := by
  constructor
  · decide
  · rfl

def bigA : String := String.mk (List.replicate 300 'x')
def bigB : String := String.mk (List.replicate 300 'y')
def srcBig : List String := [bigA, bigB]

set_option maxRecDepth 8000 in
/-- Concrete instantiation of C6 (amended): the 600-character pair is
rejected without a translator call (attempt 2 collapses to attempt 1), and
the call that is made is the size-1 batch, which passed the check. -/
theorem C6_witness :
    MAX_CHARS_PER_BLOCK < blockChars ((srcBig.drop 0).take 2) ∧
    batchAttempt trIdW segIdW srcBig 0 2 = batchAttempt trIdW segIdW srcBig 0 1 ∧
    ((∃ k, 1 ≤ k ∧ k ≤ 1 ∧ bigA = joinSents ((srcBig.drop 0).take k) ∧
        blockChars ((srcBig.drop 0).take k) ≤ MAX_CHARS_PER_BLOCK) ∨
      bigA = srcBig.getD 0 "") :=
  ⟨by decide,
   (C6_cheap_rejection trIdW segIdW srcBig 0).1 1 (by decide),
   (C6_cheap_rejection trIdW segIdW srcBig 0).2 1 bigA (by decide)⟩

/-- C10: when the single sentence at the cursor itself exceeds
`MAX_CHARS_PER_BLOCK`, every attempt size is rejected by the character
check, and the forced fallback translates exactly that sentence once,
appends all its re-segmented sentences, and advances the cursor by 1. -/
theorem C10_forced_single_translation (tr : String → String)
    (seg : String → List String) (src : List String) (cur : Nat)
    (h : cur < src.length)
    (hlong : MAX_CHARS_PER_BLOCK < (src.getD cur "").length) :
    ∀ a, batchAttempt tr seg src cur a =
      ⟨seg (tr (src.getD cur "")), 1, [src.getD cur ""]⟩ := by
  have hdrop : src.drop cur = src.getD cur "" :: src.drop (cur + 1) := by
    rw [List.getD_eq_getElem?_getD, List.getElem?_eq_getElem h]
    exact List.drop_eq_getElem_cons h
  have hblock : ∀ k, (src.getD cur "").length ≤ blockChars ((src.drop cur).take (k + 1)) := by
    intro k
    rw [hdrop]
    simp only [List.take_succ_cons, blockChars, List.map_cons, List.sum_cons]
    omega
  intro a
  induction a using Nat.strong_induction_on with
  | _ a ih =>
    match a with
    | 0 =>
      unfold batchAttempt forcedSingle
      rw [if_pos h]
    | 1 =>
      rw [batchAttempt_one_eq]
      unfold attemptOne
      dsimp only
      rw [if_pos (Nat.lt_of_lt_of_le hlong (hblock 0))]
      unfold forcedSingle
      rw [if_pos h]
    | n + 2 =>
      rw [show batchAttempt tr seg src cur (n + 2) =
        (let block := (src.drop cur).take (n + 2);
          if blockChars block > MAX_CHARS_PER_BLOCK then batchAttempt tr seg src cur (n + 1)
          else
            let t := joinSents block
            let hun := seg (tr t)
            if hun.length = block.length then ⟨hun, block.length, [t]⟩
            else
              let r := attemptOne tr seg src cur
              ⟨r.sents, r.advance, t :: r.calls⟩) from rfl]
      dsimp only
      rw [if_pos (Nat.lt_of_lt_of_le hlong (hblock (n + 1)))]
      exact ih (n + 1) (by omega)

def longSent2 : String := String.mk (List.replicate 600 'b')
def src10 : List String := [longSent2, "c."]

set_option maxRecDepth 8000 in
/-- Concrete instantiation of C10: a 600-character sentence is force-fed to
the translator as a single-sentence batch with cursor advance 1. -/
theorem C10_witness :
    0 < src10.length ∧
    MAX_CHARS_PER_BLOCK < (src10.getD 0 "").length ∧
    batchAttempt trIdW segIdW src10 0 5 =
      ⟨segIdW (trIdW (src10.getD 0 "")), 1, [src10.getD 0 ""]⟩ :=
  ⟨by decide, by decide,
   C10_forced_single_translation trIdW segIdW src10 0 (by decide) (by decide) 5⟩

/-- C5: unprotection is a left inverse of protection on marker-free text
under the fixed `EXCEPTIONS` vocabulary: protection only inserts marker
characters around (possibly nested) term occurrences, and unprotection
deletes exactly the marker characters. -/
theorem C5_protect_round_trip (s : String) (h : '§' ∉ s.data) :
    unprotect_terms (protect_terms s) = s := by
  rw [unprotect_eq_eraseMark]
  rw [show protect_terms s = String.mk (protectChars s.data) from rfl]
  rw [mk_data, eraseMark_protectChars, eraseMark_of_not_mem h]

/-- Concrete instantiation of C5, on a text containing protected terms. -/
theorem C5_witness :
    '§' ∉ "I use React Native and JavaScript.".data ∧
    unprotect_terms (protect_terms "I use React Native and JavaScript.")
      = "I use React Native and JavaScript." :=
  ⟨by decide, C5_protect_round_trip "I use React Native and JavaScript." (by decide)⟩

set_option maxHeartbeats 2000000 in
/-- C8 fails on the code: the `EXCEPTIONS` vocabulary lists `"React"` at
position 1 before its superstring `"React Native"` at position 2 (and
`"Git"` at position 8 before `"GitHub"` at position 9), so the shorter
overlapping term is replaced first and the longer term is never protected
as a unit: `protect_terms` corrupts both longer terms. -/
theorem C8_vocabulary_order_violation :
    EXCEPTIONS.getD 1 "" = "React" ∧
    EXCEPTIONS.getD 2 "" = "React Native" ∧
    "React Native" = "React" ++ " Native" ∧
    protect_terms "React Native" = "§React§ Native" ∧
    EXCEPTIONS.getD 8 "" = "Git" ∧
    EXCEPTIONS.getD 9 "" = "GitHub" ∧
    "GitHub" = "Git" ++ "Hub" ∧
    protect_terms "GitHub" = "§Git§Hub" := by decide

/-- Counterexample to C7 as stated: `"a  b"` is within the 65-character
budget, yet the wrapper normalises its whitespace and returns `"a b"`,
which is not the input. -/
theorem C7_counterexample :
    ("a  b" : String).length ≤ MAX_CHARS_PER_LINE ∧
    format_srt_text "a  b" ≠ "a  b" := by decide

/-- C7 (amended): for every text already in whitespace-normal form (it
equals its own strip, and equals the single-space join of its split words)
whose length is within the per-line budget, the wrapper returns the text
unchanged. -/
theorem C7_short_text_unchanged (s : String)
    (h1 : pyStrip s.data = s.data)
    (h2 : joinSpace (pySplit s.data) = s.data)
    (h3 : s.length ≤ MAX_CHARS_PER_LINE) :
    format_srt_text s = s := by
  unfold format_srt_text formatCore
  by_cases hnil : s.data = []
  · rw [if_pos (by rw [hnil]; rfl)]
    show String.mk [] = s
    conv_rhs => rw [show s = String.mk s.data from rfl]
    rw [hnil]
  · rw [if_neg (by rw [h1]; exact hnil)]
    dsimp only
    rw [h2, if_pos (show s.data.length ≤ MAX_CHARS_PER_LINE from h3)]

/-- Concrete instantiation of C7 (amended). -/
theorem C7_witness :
    pyStrip "hello world".data = "hello world".data ∧
    joinSpace (pySplit "hello world".data) = "hello world".data ∧
    ("hello world" : String).length ≤ MAX_CHARS_PER_LINE ∧
    format_srt_text "hello world" = "hello world" :=
  ⟨by decide, by decide, by decide,
   C7_short_text_unchanged "hello world" (by decide) (by decide) (by decide)⟩

/-! ### Length bounds for the rebalancing pass -/

theorem joinSpace_cons_ne {w : List Char} {ws : List (List Char)} (h : ws ≠ []) :
    joinSpace (w :: ws) = w ++ ' ' :: joinSpace ws := by
  cases ws with
  | nil => exact absurd rfl h
  | cons a as => rfl

theorem joinSpace_single (w : List Char) : joinSpace [w] = w := by
  simp [joinSpace]

theorem joinSpace_append_last {ws : List (List Char)} (w : List Char) (h : ws ≠ []) :
    joinSpace (ws ++ [w]) = joinSpace ws ++ ' ' :: w := by
  induction ws with
  | nil => exact absurd rfl h
  | cons a as ih =>
    cases as with
    | nil => simp [joinSpace]
    | cons b bs =>
      rw [List.cons_append, joinSpace_cons_ne (show (b :: bs) ++ [w] ≠ [] by simp),
          ih (by simp),
          show joinSpace (a :: b :: bs) = a ++ ' ' :: joinSpace (b :: bs) from
            joinSpace_cons_ne (by simp)]
      simp

/-- Rejoining the split words never yields more characters than the original
text: every word's characters come from the text and every separating space
consumes at least one whitespace character of it. -/
theorem joinSpace_wordsAux_le : ∀ (s acc : List Char),
    (joinSpace (wordsAux acc s)).length ≤ acc.length + s.length := by
  intro s
  induction s with
  | nil =>
    intro acc
    unfold wordsAux
    split
    · simp [joinSpace]
    · rw [joinSpace_single]
      simp
  | cons c cs ih =>
    intro acc
    unfold wordsAux
    split
    · split
      · have := ih []
        simp only [List.length_nil, Nat.zero_add] at this
        simp only [List.length_cons]
        omega
      · by_cases hrest : wordsAux [] cs = []
        · rw [hrest, joinSpace_single]
          simp only [List.length_reverse, List.length_cons]
          omega
        · rw [joinSpace_cons_ne hrest]
          have := ih []
          simp only [List.length_nil, Nat.zero_add] at this
          simp only [List.length_append, List.length_reverse, List.length_cons]
          omega
    · have := ih (c :: acc)
      simp only [List.length_cons] at this ⊢
      omega

theorem joinSplit_le (l : List Char) : (joinSpace (pySplit l)).length ≤ l.length := by
  have := joinSpace_wordsAux_le l []
  simpa [pySplit] using this

theorem dropWhile_len_le (p : Char → Bool) (l : List Char) :
    (l.dropWhile p).length ≤ l.length := by
  induction l with
  | nil => simp
  | cons c cs ih =>
    rw [List.dropWhile_cons]
    split
    · simp only [List.length_cons]
      omega
    · simp

theorem pyStrip_le (l : List Char) : (pyStrip l).length ≤ l.length := by
  unfold pyStrip
  rw [List.length_reverse]
  calc ((l.dropWhile pyIsSpace).reverse.dropWhile pyIsSpace).length
      ≤ (l.dropWhile pyIsSpace).reverse.length := dropWhile_len_le _ _
    _ = (l.dropWhile pyIsSpace).length := List.length_reverse _
    _ ≤ l.length := dropWhile_len_le _ _

/-- One word-moving iteration never increases the combined character count
of the two lines (rejoining the split source line can only shrink it). -/
theorem balanceStep_sum {l1 l2 m1 m2 : List Char}
    (h : balanceStep l1 l2 = some (m1, m2)) :
    m1.length + m2.length ≤ l1.length + l2.length := by
  unfold balanceStep at h
  split at h
  · exact absurd h (by simp)
  · split at h
    · dsimp only at h
      split at h
      · exact absurd h (by simp)
      · next hgt =>
        have hlen2 : 2 ≤ (pySplit l1).length := by omega
        rcases List.eq_nil_or_concat (pySplit l1) with hnil | ⟨ys, y, hconcat⟩
        · rw [hnil] at hlen2; simp at hlen2
        · rw [List.concat_eq_append] at hconcat
          have hys : ys ≠ [] := by
            intro hy
            rw [hconcat, hy] at hlen2
            simp at hlen2
          rw [hconcat, List.dropLast_concat, List.getLast?_concat] at h
          simp only [Option.getD_some] at h
          injection h with h'
          injection h' with e1 e2
          have hjoin : (joinSpace (ys ++ [y])).length ≤ l1.length := by
            rw [← hconcat]
            exact joinSplit_le l1
          rw [joinSpace_append_last y hys] at hjoin
          subst e1
          subst e2
          simp only [List.length_append, List.length_cons] at hjoin ⊢
          omega
    · dsimp only at h
      split at h
      · exact absurd h (by simp)
      · next hgt =>
        have hlen2 : 2 ≤ (pySplit l2).length := by omega
        cases hsplit : pySplit l2 with
        | nil => rw [hsplit] at hlen2; simp at hlen2
        | cons a t =>
          have ht : t ≠ [] := by
            intro hy
            rw [hsplit, hy] at hlen2
            simp at hlen2
          rw [hsplit] at h
          simp only [List.head?_cons, Option.getD_some, List.tail_cons] at h
          injection h with h'
          injection h' with e1 e2
          have hjoin : (joinSpace (a :: t)).length ≤ l2.length := by
            rw [← hsplit]
            exact joinSplit_le l2
          rw [joinSpace_cons_ne ht] at hjoin
          subst e1
          subst e2
          simp only [List.length_append, List.length_cons] at hjoin ⊢
          omega

theorem balanceLoop_sum : ∀ (n : Nat) (p : List Char × List Char),
    (balanceLoop n p).1.length + (balanceLoop n p).2.length ≤ p.1.length + p.2.length := by
  intro n
  induction n with
  | zero => intro p; exact Nat.le_refl _
  | succ m ih =>
    intro p
    obtain ⟨l1, l2⟩ := p
    have hunfold : balanceLoop (m + 1) (l1, l2) =
        match balanceStep l1 l2 with
        | none => (l1, l2)
        | some q => balanceLoop m q := rfl
    rw [hunfold]
    cases hstep : balanceStep l1 l2 with
    | none => exact Nat.le_refl _
    | some q =>
      dsimp only
      exact Nat.le_trans (ih q) (balanceStep_sum hstep)

/-- C9 (amended): the rebalancing pass never increases the combined length
of the two lines; consequently each output line — and in particular the
maximum line length — is bounded by the combined pre-rebalance length.  The
maximum line length itself can grow (see the counterexample), so the
combined length is the invariant the pass actually preserves. -/
theorem C9_rebalance_total_length (l1 l2 : List Char) :
    (balance_two_lines l1 l2).1.length + (balance_two_lines l1 l2).2.length
      ≤ l1.length + l2.length ∧
    max (balance_two_lines l1 l2).1.length (balance_two_lines l1 l2).2.length
      ≤ l1.length + l2.length := by
  have hloop := balanceLoop_sum 3 (l1, l2)
  dsimp only at hloop
  have h1 := pyStrip_le (balanceLoop 3 (l1, l2)).1
  have h2 := pyStrip_le (balanceLoop 3 (l1, l2)).2
  have hsum : (balance_two_lines l1 l2).1.length + (balance_two_lines l1 l2).2.length
      ≤ l1.length + l2.length := by
    unfold balance_two_lines
    dsimp only
    omega
  refine ⟨hsum, ?_⟩
  apply Nat.max_le.mpr
  omega

/-- The first line of the counterexample: `"a bbbbbbbbbbbbbbbbbbbb"`. -/
def lineA : List Char := 'a' :: ' ' :: List.replicate 20 'b'

def lineB : List Char := ['c', 'c']

/-- Counterexample to C9 as stated: moving the 20-character word of
`"a bbbbbbbbbbbbbbbbbbbb"` (length 22) in front of `"cc"` produces the pair
`("a", "bbbbbbbbbbbbbbbbbbbb cc")` whose maximum line length 23 exceeds the
pre-rebalance maximum 22. -/
theorem C9_counterexample :
    max lineA.length lineB.length <
      max (balance_two_lines lineA lineB).1.length
        (balance_two_lines lineA lineB).2.length := by decide

/-! ### Reassembler lemmas -/

theorem format_srt_text_empty : format_srt_text "" = "" := by decide

theorem joinSents_nil : joinSents [] = "" := by decide

theorem takeFromPool_snd (pool : List String) :
    ∀ (n idx : Nat), idx ≤ pool.length →
      (takeFromPool pool idx n).2 = min (idx + n) pool.length := by
  intro n
  induction n with
  | zero =>
    intro idx h
    show idx = min (idx + 0) pool.length
    omega
  | succ m ih =>
    intro idx h
    unfold takeFromPool
    split
    · next hlt =>
      dsimp only
      rw [ih (idx + 1) (by omega)]
      omega
    · next hge =>
      rw [ih idx h]
      omega

theorem takeFromPool_fst (pool : List String) :
    ∀ (n idx : Nat), idx ≤ pool.length →
      (takeFromPool pool idx n).1 = (pool.drop idx).take n := by
  intro n
  induction n with
  | zero =>
    intro idx h
    rfl
  | succ m ih =>
    intro idx h
    unfold takeFromPool
    split
    · next hlt =>
      dsimp only
      rw [ih (idx + 1) (by omega)]
      have hdrop : pool.drop idx = pool.getD idx "" :: pool.drop (idx + 1) := by
        rw [List.getD_eq_getElem?_getD, List.getElem?_eq_getElem hlt]
        exact List.drop_eq_getElem_cons hlt
      rw [hdrop, List.take_succ_cons]
    · next hge =>
      rw [ih idx h]
      have hd : pool.drop idx = [] := by
        apply List.drop_eq_nil_of_le
        omega
      rw [hd]
      simp

/-- C3: for every block sequence and translated-sentence pool, the
reassembler's cursor after all blocks is the total of the per-block original
sentence counts saturated at the pool size (so each block consumes exactly
its count, fewer only when the pool runs out, and the total consumed never
exceeds the pool); each output block's text is the space-join of the pool
window at its cursor (then line-wrapped, as the code does in the same loop),
and blocks starting at or beyond the pool end get empty text. -/
theorem C3_reassembler_pool_invariant (seg : String → List String)
    (pool : List String) :
    ∀ (bs : List SrtBlock) (idx : Nat), idx ≤ pool.length →
      (reassemble seg bs pool idx).2
          = min (idx + (blockCounts seg bs).sum) pool.length ∧
      (reassemble seg bs pool idx).2 ≤ pool.length ∧
      (reassemble seg bs pool idx).1.length = bs.length ∧
      ∀ i, i < bs.length →
        ((reassemble seg bs pool idx).1.getD i default).text
            = format_srt_text (joinSents
                ((pool.drop (cursorBefore seg bs pool idx i)).take
                  ((blockCounts seg bs).getD i 0))) ∧
        (pool.length ≤ cursorBefore seg bs pool idx i →
          ((reassemble seg bs pool idx).1.getD i default).text = "") := by
  intro bs
  induction bs with
  | nil =>
    intro idx h
    refine ⟨?_, h, rfl, ?_⟩
    · show idx = min (idx + ([] : List Nat).sum) pool.length
      simp only [List.sum_nil]
      omega
    · intro i hi
      simp at hi
  | cons b bs ih =>
    intro idx h
    have hsnd := takeFromPool_snd pool (seg b.text).length idx h
    have hfst := takeFromPool_fst pool (seg b.text).length idx h
    have hidx2 : (takeFromPool pool idx (seg b.text).length).2 ≤ pool.length := by
      rw [hsnd]; omega
    have IH := ih (takeFromPool pool idx (seg b.text).length).2 hidx2
    have hcounts : blockCounts seg (b :: bs) = (seg b.text).length :: blockCounts seg bs := rfl
    have hre : reassemble seg (b :: bs) pool idx =
        ({ index := b.index, timestamp := b.timestamp,
           text := format_srt_text
             (joinSents (takeFromPool pool idx (seg b.text).length).1) } ::
          (reassemble seg bs pool (takeFromPool pool idx (seg b.text).length).2).1,
         (reassemble seg bs pool (takeFromPool pool idx (seg b.text).length).2).2) := rfl
    refine ⟨?_, ?_, ?_, ?_⟩
    · rw [hre]
      dsimp only
      rw [IH.1, hsnd, hcounts]
      simp only [List.sum_cons]
      omega
    · rw [hre]
      dsimp only
      exact IH.2.1
    · rw [hre]
      dsimp only [List.length_cons]
      rw [IH.2.2.1]
    · intro i hi
      match i with
      | 0 =>
        have hcur : cursorBefore seg (b :: bs) pool idx 0 = idx := by
          unfold cursorBefore
          simp only [List.take_zero, List.sum_nil]
          omega
        constructor
        · rw [hre]
          dsimp only [List.getD_cons_zero]
          rw [hcur, hcounts]
          simp only [List.getD_cons_zero]
          rw [hfst]
        · intro hex
          rw [hcur] at hex
          have hidx : idx = pool.length := by omega
          rw [hre]
          dsimp only [List.getD_cons_zero]
          rw [hfst, hidx, List.drop_length]
          simp only [List.take_nil]
          rw [joinSents_nil, format_srt_text_empty]
      | i + 1 =>
        have hcur : cursorBefore seg (b :: bs) pool idx (i + 1)
            = cursorBefore seg bs pool (takeFromPool pool idx (seg b.text).length).2 i := by
          unfold cursorBefore
          rw [hsnd, hcounts]
          simp only [List.take_succ_cons, List.sum_cons]
          omega
        have hIHi := IH.2.2.2 i (by simpa using hi)
        constructor
        · rw [hre]
          dsimp only [List.getD_cons_succ]
          rw [hcur, hcounts]
          simp only [List.getD_cons_succ]
          exact hIHi.1
        · intro hex
          rw [hcur] at hex
          rw [hre]
          dsimp only [List.getD_cons_succ]
          exact hIHi.2 hex

def segSplitW : String → List String :=
  fun s => if s = "x. y." then ["x.", "y."] else [s]

def blocksW : List SrtBlock :=
  [{ index := 1, timestamp := "t1", text := "x. y." },
   { index := 2, timestamp := "t2", text := "z." }]

def poolW : List String := ["A", "B"]

/-- Concrete instantiation of C3 on a two-sentence pool that runs out before
the second block: the final cursor saturates at the pool size and the first
block's text is the joined two-sentence window. -/
theorem C3_witness :
    (0 : Nat) ≤ poolW.length ∧
    (reassemble segSplitW blocksW poolW 0).2
        = min (0 + (blockCounts segSplitW blocksW).sum) poolW.length ∧
    ((reassemble segSplitW blocksW poolW 0).1.getD 0 default).text
        = format_srt_text (joinSents
            ((poolW.drop (cursorBefore segSplitW blocksW poolW 0 0)).take
              ((blockCounts segSplitW blocksW).getD 0 0))) :=
  ⟨by decide,
   (C3_reassembler_pool_invariant segSplitW poolW blocksW 0 (by decide)).1,
   ((C3_reassembler_pool_invariant segSplitW poolW blocksW 0 (by decide)).2.2.2 0
      (by decide)).1⟩

theorem reassemble_length_timestamps (seg : String → List String)
    (pool : List String) :
    ∀ (bs : List SrtBlock) (idx : Nat),
      (reassemble seg bs pool idx).1.length = bs.length ∧
      ∀ i, ((reassemble seg bs pool idx).1.getD i default).timestamp
          = (bs.getD i default).timestamp := by
  intro bs
  induction bs with
  | nil =>
    intro idx
    exact ⟨rfl, fun i => rfl⟩
  | cons b bs ih =>
    intro idx
    have hre : reassemble seg (b :: bs) pool idx =
        ({ index := b.index, timestamp := b.timestamp,
           text := format_srt_text
             (joinSents (takeFromPool pool idx (seg b.text).length).1) } ::
          (reassemble seg bs pool (takeFromPool pool idx (seg b.text).length).2).1,
         (reassemble seg bs pool (takeFromPool pool idx (seg b.text).length).2).2) := rfl
    rw [hre]
    refine ⟨?_, ?_⟩
    · dsimp only [List.length_cons]
      rw [(ih (takeFromPool pool idx (seg b.text).length).2).1]
    · intro i
      match i with
      | 0 => rfl
      | i + 1 =>
        dsimp only [List.getD_cons_succ]
        exact (ih (takeFromPool pool idx (seg b.text).length).2).2 i

/-- C4: for every raw input file that parses, the pipeline emits exactly as
many blocks as were parsed, and the block at each position carries a
time-range string identical to the parsed block's (positions past the end
compare two defaults); an unparseable file yields no output at all. -/
theorem C4_structure_preserved (argos : String → String)
    (seg : String → List String) (raw : String) :
    (pipeline argos seg raw).map List.length
        = (read_srt raw).map List.length ∧
    ∀ i, (pipeline argos seg raw).map (fun l => (l.getD i default).timestamp)
        = (read_srt raw).map (fun l => (l.getD i default).timestamp) := by
  cases hr : read_srt raw with
  | none =>
    unfold pipeline
    rw [hr]
    exact ⟨rfl, fun i => rfl⟩
  | some blocks =>
    have h := reassemble_length_timestamps seg
      ((processSentences (translate_text argos) seg
        ((blocks.map (fun b => seg b.text)).flatten)).out) blocks 0
    unfold pipeline
    rw [hr]
    constructor
    · simp only [Option.map_some']
      exact congrArg some h.1
    · intro i
      simp only [Option.map_some']
      exact congrArg some (h.2 i)

end SubTrans
